import Mathlib

/-!
# Verification of the prismix schema composer (`src/lib/prismix.ts`)

A shallow embedding of the core of `prismix.ts`: the entity merger
`mixModels`, the section reductions for enums / datasources / generators
performed inline in `prismix`, and the per-job orchestration of `prismix`
itself.  External collaborators (the Prisma parser behind `getSchema`, the
four `deserialize*` renderers, and the filesystem) are modelled as
parameters of an environment record; the file write performed at the end of
each job is modelled as an output list of `(path, text)` pairs.

JavaScript semantics that matter here and are modelled faithfully:

* `mixModels` accumulates models in a plain object `models` keyed by model
  name.  `Object.values` enumerates such an object's own keys with
  array-index-like keys first (canonical decimal strings whose value is
  `< 2^32 - 1`), in ascending numeric order, followed by the remaining
  string keys in insertion order.  We model the object as an
  insertion-ordered association list and implement this enumeration order
  in `objectValues`.  (Lookups of keys inherited from `Object.prototype`,
  e.g. a model literally named `toString`, would crash the original code
  with a `TypeError`; the model treats the object as a clean map.)
* the field-name snapshot `existingFieldNames` is computed once per
  incoming model, before its fields are folded in, and is not refreshed
  while fields are appended;
* `Array.prototype.filter((e) => e)` on strings drops exactly the empty
  strings (the only falsy strings), and `Array.prototype.join` interleaves
  the separator;
* `await` inside the `for` loops of `prismix` means the first load failure
  rejects the whole invocation: no `try`/`catch` is present, so later
  mixers do not run, and writes already performed stay performed;
* the guard `!!schema.enums` in the enum accumulation is always true (an
  array is truthy), so enum accumulation is plain concatenation.
-/

namespace Prismix

/-- An entity field.  The payload (type, modifiers, attributes, default) is
opaque to the merge and is modelled as a single string. -/
structure Field where
  name : String
  payload : String
deriving DecidableEq, Repr

/-- A model (entity): a name plus an ordered field list. -/
structure Model where
  name : String
  fields : List Field
deriving DecidableEq, Repr

/-- An enum block, opaque except for its name. -/
structure DatamodelEnum where
  name : String
  values : List String
deriving DecidableEq, Repr

/-- A datasource block, opaque to the core. -/
structure DataSource where
  raw : String
deriving DecidableEq, Repr

/-- A generator block, opaque to the core. -/
structure GeneratorConfig where
  raw : String
deriving DecidableEq, Repr

/-- The result of `getSchema` for one input file. -/
structure Schema where
  models : List Model
  enums : List DatamodelEnum
  datasources : List DataSource
  generators : List GeneratorConfig
deriving DecidableEq, Repr

/-- One mixer job: input paths and an output path. -/
structure MixerOptions where
  input : List String
  output : String
deriving DecidableEq, Repr

/-- Options of a `prismix` invocation. -/
structure PrismixOptions where
  mixers : List MixerOptions
deriving DecidableEq, Repr

/-- An error raised by schema loading (file read / parse), opaque. -/
structure LoadError where
  msg : String
deriving DecidableEq, Repr

/-! ## JavaScript array/object primitives used by the source -/

/-- `Array.prototype.includes` on a string array. -/
def includes (names : List String) (x : String) : Bool :=
  match names with
  | [] => false
  | n :: rest => n == x || includes rest x

/-- `Array.prototype.indexOf` on a string array.  The source only calls it
when `includes` holds, so the out-of-range result for an absent element is
irrelevant (we return the length instead of `-1`). -/
def indexOf (names : List String) (x : String) : Nat :=
  match names with
  | [] => 0
  | n :: rest => if n == x then 0 else indexOf rest x + 1

/-- All characters are decimal digits. -/
def allDigits (cs : List Char) : Bool :=
  cs.all fun c => '0' ≤ c && c ≤ '9'

/-- Numeric value of a digit string. -/
def digitsToNat (cs : List Char) : Nat :=
  cs.foldl (fun acc c => acc * 10 + (c.toNat - 48)) 0

/-- Whether a string is a canonical decimal representation of a natural
number (digits only, no leading zero except `"0"` itself). -/
def isCanonicalNat (s : String) : Bool :=
  let cs := s.data
  !cs.isEmpty && allDigits cs && (cs.head? != some '0' || cs.length == 1)

/-- Whether a JavaScript property key is an array index: a canonical
decimal string whose value is below `2 ^ 32 - 1`.  Such keys are enumerated
first, in ascending numeric order, by `Object.values`. -/
def isArrayIndex (s : String) : Bool :=
  isCanonicalNat s && digitsToNat s.data < 4294967295

/-- Insert an entry into a list sorted by ascending numeric key value. -/
def insertByKey (p : String × Model) : List (String × Model) → List (String × Model)
  | [] => [p]
  | q :: rest =>
    if digitsToNat p.1.data ≤ digitsToNat q.1.data then p :: q :: rest
    else q :: insertByKey p rest

/-- Sort entries by ascending numeric key value (insertion sort). -/
def sortByKey : List (String × Model) → List (String × Model)
  | [] => []
  | p :: rest => insertByKey p (sortByKey rest)

/-- `Object.values` of a plain object represented as an insertion-ordered
association list with pairwise-distinct keys: array-index-like keys first
in ascending numeric order, then the other keys in insertion order. -/
def objectValues (entries : List (String × Model)) : List Model :=
  (sortByKey (entries.filter fun e => isArrayIndex e.1) ++
      entries.filter fun e => !isArrayIndex e.1).map Prod.snd

/-- Property lookup `models[name]` (own properties only). -/
def lookupModel : List (String × Model) → String → Option Model
  | [], _ => none
  | e :: rest, name => if e.1 == name then some e.2 else lookupModel rest name

/-- In-place mutation of the model stored under `name` (the source mutates
`existingModel`, which is the object stored in the map). -/
def updateModel (entries : List (String × Model)) (name : String) (m : Model) :
    List (String × Model) :=
  entries.map fun e => if e.1 == name then (e.1, m) else e

/-! ## The entity merger `mixModels` (prismix.ts lines 46–70) -/

/-- The inner field-reconciliation loop of `mixModels` (lines 53–64): the
name snapshot `existingFieldNames` is taken once from the fields present
when the incoming model is encountered and is not refreshed while new
fields are appended. -/
def mergeFields (existingFields newFields : List Field) : List Field :=
  let existingFieldNames := existingFields.map fun f => f.name
  newFields.foldl
    (fun fields newField =>
      if includes existingFieldNames newField.name then
        fields.set (indexOf existingFieldNames newField.name) newField
      else
        fields ++ [newField])
    existingFields

/-- One iteration of the `for (const newModel of inputModels)` loop. -/
def mixModelsStep (models : List (String × Model)) (newModel : Model) :
    List (String × Model) :=
  match lookupModel models newModel.name with
  | some existingModel =>
    updateModel models newModel.name
      { existingModel with fields := mergeFields existingModel.fields newModel.fields }
  | none => models ++ [(newModel.name, newModel)]

/-- `mixModels` (lines 46–70): fold all input models into the name-keyed
object, then return `Object.values`. -/
def mixModels (inputModels : List Model) : List Model :=
  objectValues (inputModels.foldl mixModelsStep [])

/-! ## Section reductions inside `prismix` (lines 84–96) -/

/-- Enum reduction (lines 84–85): plain concatenation in fragment order.
(The source guard `!!schema.enums` is always true on an array.) -/
def reduceEnums {α : Type} (lists : List (List α)) : List α :=
  lists.foldl (fun acc l => acc ++ l) []

/-- Singleton-section reduction (lines 87–96, used for datasources and,
independently, generators): a non-empty list fully replaces the
accumulator, so the last non-empty list wins. -/
def reduceSingletons {α : Type} (lists : List (List α)) : List α :=
  lists.foldl (fun acc l => if l.length > 0 then l else acc) []

/-! ## The orchestrator `prismix` (lines 72–108) -/

/-- External collaborators of one `prismix` run: the loader behind
`getSchema` and the four section renderers. -/
structure Env where
  load : String → Except LoadError Schema
  deserializeDatasources : List DataSource → String
  deserializeGenerators : List GeneratorConfig → String
  deserializeModels : List Model → String
  deserializeEnums : List DatamodelEnum → String

/-- `filter((e) => e)` on strings: drop the falsy (= empty) strings. -/
def jsFilterTruthy (l : List String) : List String :=
  l.filter fun s => !s.isEmpty

/-- `Array.prototype.join(sep)`. -/
def jsJoin (sep : String) : List String → String
  | [] => ""
  | [s] => s
  | s :: rest => s ++ sep ++ jsJoin sep rest

/-- Lines 80–105 of one mixer iteration: mix the models of the loaded
schemas, reduce the other sections, render each section, drop the empty
renderings and join with `"\n\n\n"`. -/
def buildOutput (env : Env) (schemasToMix : List Schema) : String :=
  let models := mixModels (schemasToMix.foldl (fun acc s => acc ++ s.models) [])
  let enums := reduceEnums (schemasToMix.map fun s => s.enums)
  let datasources := reduceSingletons (schemasToMix.map fun s => s.datasources)
  let generators := reduceSingletons (schemasToMix.map fun s => s.generators)
  jsJoin "\n\n\n"
    (jsFilterTruthy
      [env.deserializeDatasources datasources,
        env.deserializeGenerators generators,
        env.deserializeModels models,
        env.deserializeEnums enums])

/-- Line 77: load every input of a mixer in order; the first failed
`await getSchema` rejects and aborts. -/
def loadSchemas (env : Env) : List String → Except LoadError (List Schema)
  | [] => .ok []
  | p :: ps =>
    match env.load p with
    | .error e => .error e
    | .ok s =>
      match loadSchemas env ps with
      | .error e => .error e
      | .ok ss => .ok (s :: ss)

/-- The `for (const mixer of options.mixers)` loop.  The result is the list
of `(outputPath, text)` writes performed, plus the error that rejected the
invocation, if any: there is no `try`/`catch`, so the first load failure
ends the whole loop and later mixers never run. -/
def runMixers (env : Env) : List MixerOptions → List (String × String) × Option LoadError
  | [] => ([], none)
  | mixer :: rest =>
    match loadSchemas env mixer.input with
    | .error e => ([], some e)
    | .ok schemasToMix =>
      let result := runMixers env rest
      ((mixer.output, buildOutput env schemasToMix) :: result.1, result.2)

/-- `prismix` (lines 72–108). -/
def prismix (env : Env) (options : PrismixOptions) :
    List (String × String) × Option LoadError :=
  runMixers env options.mixers

/-! ## Spec-side definitions used to state the claims -/

/-- First-seen order of a name stream: the spec's "output order =
first-seen order of Entity names across the full input stream". -/
def firstSeen (names : List String) : List String :=
  names.foldl (fun acc n => if includes acc n then acc else acc ++ [n]) []

/-- The spec's Entity Merger contract takes the fragments' entity lists
(one per fragment) and processes the entities in stream order; the
orchestrator instead flattens everything and calls `mixModels` once. -/
def mixModelsFragments (fragments : List (List Model)) : List Model :=
  objectValues (fragments.foldl (fun entries fragment => fragment.foldl mixModelsStep entries) [])

/-- Last new field carrying a given name, used to describe the result of
field reconciliation. -/
def lastWins (newFields : List Field) (e : Field) : Field :=
  ((newFields.filter fun f => f.name == e.name).getLast?).getD e

/-- `sep ++ a₁ ++ sep ++ a₂ ++ ...`, the tail of a separator join. -/
def sepConcat (sep : String) : List String → String
  | [] => ""
  | a :: as => sep ++ a ++ sepConcat sep as

/-- A concrete schema used to instantiate theorems with hypotheses. -/
def schemaA : Schema :=
  { models := [⟨"User", [⟨"id", "Int"⟩]⟩]
    enums := []
    datasources := [⟨"db"⟩]
    generators := [⟨"client"⟩] }

/-- A concrete environment used to instantiate theorems with hypotheses:
loading `bad.prisma` fails, every other path yields `schemaA`, and each
renderer returns a fixed non-empty string on non-empty input. -/
def envTest : Env where
  load := fun p => if p == "bad.prisma" then .error ⟨"ENOENT: bad.prisma"⟩ else .ok schemaA
  deserializeDatasources := fun l => if l.isEmpty then "" else "datasource"
  deserializeGenerators := fun l => if l.isEmpty then "" else "generator"
  deserializeModels := fun l => if l.isEmpty then "" else "models"
  deserializeEnums := fun l => if l.isEmpty then "" else "enums"

/-! ## Helper lemmas -/

lemma includes_iff {l : List String} {x : String} : includes l x = true ↔ x ∈ l := by
  induction l with
  | nil => simp [includes]
  | cons n rest ih =>
    rw [includes]
    simp only [Bool.or_eq_true, beq_iff_eq, ih, List.mem_cons]
    exact or_congr eq_comm Iff.rfl

lemma includes_eq_false {l : List String} {x : String} : includes l x = false ↔ x ∉ l := by
  rw [← Bool.not_eq_true, includes_iff]

lemma indexOf_lt_length {l : List String} {x : String} (h : includes l x = true) :
    indexOf l x < l.length := by
  induction l with
  | nil => simp [includes] at h
  | cons n rest ih =>
    rw [indexOf]
    split
    · simp
    · rename_i hn
      rw [Bool.not_eq_true] at hn
      rw [includes, hn, Bool.false_or] at h
      simpa [Nat.succ_lt_succ_iff] using ih h

lemma lookupModel_isSome (es : List (String × Model)) (name : String) :
    (lookupModel es name).isSome = includes (es.map Prod.fst) name := by
  induction es with
  | nil => rfl
  | cons e rest ih =>
    rw [lookupModel, List.map_cons, includes]
    by_cases h : (e.1 == name) = true
    · simp [h]
    · rw [Bool.not_eq_true] at h
      simp [h, ih]

lemma lookupModel_eq_none {es : List (String × Model)} {name : String}
    (h : includes (es.map Prod.fst) name = false) : lookupModel es name = none := by
  cases hl : lookupModel es name with
  | none => rfl
  | some m =>
    have := lookupModel_isSome es name
    rw [hl, h] at this
    simp at this

/-- Every stored model's name equals its key: the invariant of the
`models` object of `mixModels`. -/
def Coherent (es : List (String × Model)) : Prop := ∀ e ∈ es, e.2.name = e.1

lemma lookupModel_name {es : List (String × Model)} {name : String} {m : Model}
    (hC : Coherent es) (h : lookupModel es name = some m) : m.name = name := by
  induction es with
  | nil => simp [lookupModel] at h
  | cons e rest ih =>
    rw [lookupModel] at h
    split at h
    · rename_i hb
      cases h
      have := hC e (List.mem_cons_self e rest)
      rw [this]
      exact eq_of_beq hb
    · exact ih (fun a ha => hC a (List.mem_cons_of_mem e ha)) h

lemma updateModel_keys (es : List (String × Model)) (name : String) (m : Model) :
    (updateModel es name m).map Prod.fst = es.map Prod.fst := by
  rw [updateModel, List.map_map]
  apply List.map_congr_left
  intro e _
  by_cases h : e.1 = name <;> simp [h]

lemma updateModel_coherent {es : List (String × Model)} {name : String} {m : Model}
    (hC : Coherent es) (hm : m.name = name) : Coherent (updateModel es name m) := by
  intro e he
  rw [updateModel] at he
  simp only [List.mem_map] at he
  obtain ⟨a, ha, rfl⟩ := he
  by_cases h : a.1 = name
  · simp [h, hm]
  · simp [h]
    exact hC a ha

lemma coherent_step {es : List (String × Model)} (hC : Coherent es) (newModel : Model) :
    Coherent (mixModelsStep es newModel) := by
  rw [mixModelsStep]
  cases h : lookupModel es newModel.name with
  | none =>
    intro e he
    rw [List.mem_append] at he
    cases he with
    | inl h' => exact hC e h'
    | inr h' =>
      simp at h'
      rw [h']
  | some existingModel =>
    apply updateModel_coherent hC
    show existingModel.name = newModel.name
    exact lookupModel_name hC h

lemma coherent_foldl (l : List Model) :
    ∀ es, Coherent es → Coherent (l.foldl mixModelsStep es) := by
  induction l with
  | nil => exact fun _ h => h
  | cons m rest ih => exact fun es h => ih _ (coherent_step h m)

lemma keys_step (es : List (String × Model)) (m : Model) :
    (mixModelsStep es m).map Prod.fst =
      if includes (es.map Prod.fst) m.name then es.map Prod.fst
      else es.map Prod.fst ++ [m.name] := by
  rw [mixModelsStep]
  cases h : lookupModel es m.name with
  | none =>
    have hinc : includes (es.map Prod.fst) m.name = false := by
      have h' := lookupModel_isSome es m.name
      rw [h] at h'
      exact h'.symm
    simp [hinc]
  | some existingModel =>
    have hinc : includes (es.map Prod.fst) m.name = true := by
      have h' := lookupModel_isSome es m.name
      rw [h] at h'
      exact h'.symm
    simp [hinc, updateModel_keys]

lemma keys_foldl (l : List Model) :
    ∀ es, (l.foldl mixModelsStep es).map Prod.fst =
      l.foldl (fun acc m => if includes acc m.name then acc else acc ++ [m.name])
        (es.map Prod.fst) := by
  induction l with
  | nil => exact fun _ => rfl
  | cons m rest ih =>
    intro es
    rw [List.foldl_cons, List.foldl_cons, ih, keys_step]

lemma nodup_names_foldl (names : List String) :
    ∀ acc : List String, acc.Nodup →
      (names.foldl (fun acc n => if includes acc n then acc else acc ++ [n]) acc).Nodup := by
  induction names with
  | nil => exact fun _ h => h
  | cons n rest ih =>
    intro acc h
    rw [List.foldl_cons]
    by_cases hn : includes acc n = true
    · rw [if_pos hn]
      exact ih acc h
    · rw [Bool.not_eq_true] at hn
      rw [hn, if_neg Bool.false_ne_true]
      apply ih
      have hmem : n ∉ acc := includes_eq_false.mp hn
      simp [List.nodup_append, h, hmem]

lemma mem_names_foldl {x : String} (names : List String) :
    ∀ acc, x ∈ names.foldl (fun acc n => if includes acc n then acc else acc ++ [n]) acc →
      x ∈ acc ∨ x ∈ names := by
  induction names with
  | nil => exact fun _ h => Or.inl h
  | cons n rest ih =>
    intro acc h
    rw [List.foldl_cons] at h
    by_cases hn : includes acc n = true
    · rw [if_pos hn] at h
      cases ih acc h with
      | inl h' => exact Or.inl h'
      | inr h' => exact Or.inr (List.mem_cons_of_mem n h')
    · rw [Bool.not_eq_true] at hn
      rw [hn, if_neg Bool.false_ne_true] at h
      cases ih (acc ++ [n]) h with
      | inl h' =>
        rw [List.mem_append] at h'
        cases h' with
        | inl h'' => exact Or.inl h''
        | inr h'' =>
          simp at h''
          exact Or.inr (h'' ▸ List.mem_cons_self n rest)
      | inr h' => exact Or.inr (List.mem_cons_of_mem n h')

lemma insertByKey_perm (p : String × Model) (l : List (String × Model)) :
    (insertByKey p l).Perm (p :: l) := by
  induction l with
  | nil => exact List.Perm.refl _
  | cons q rest ih =>
    rw [insertByKey]
    split
    · exact List.Perm.refl _
    · exact (ih.cons q).trans (List.Perm.swap p q rest)

lemma sortByKey_perm (l : List (String × Model)) : (sortByKey l).Perm l := by
  induction l with
  | nil => exact List.Perm.refl _
  | cons p rest ih =>
    rw [sortByKey]
    exact (insertByKey_perm p (sortByKey rest)).trans (ih.cons p)

lemma objectValues_perm (es : List (String × Model)) :
    (objectValues es).Perm (es.map Prod.snd) := by
  rw [objectValues]
  apply List.Perm.map
  exact ((sortByKey_perm _).append_right _).trans (List.filter_append_perm _ es)

lemma objectValues_no_index {es : List (String × Model)}
    (h : ∀ e ∈ es, isArrayIndex e.1 = false) : objectValues es = es.map Prod.snd := by
  rw [objectValues]
  have h1 : es.filter (fun e => isArrayIndex e.1) = [] := by
    rw [List.filter_eq_nil_iff]
    intro e he
    simp [h e he]
  have h2 : es.filter (fun e => !isArrayIndex e.1) = es := by
    rw [List.filter_eq_self]
    intro e he
    simp [h e he]
  rw [h1, h2, sortByKey, List.nil_append]

lemma objectValues_singleton (n : String) (m : Model) : objectValues [(n, m)] = [m] := by
  rw [objectValues]
  cases h : isArrayIndex n <;> simp [List.filter, h, sortByKey, insertByKey]

lemma foldl_fresh :
    ∀ (l : List Model) (es : List (String × Model)),
      (l.map Model.name).Nodup →
      (∀ m ∈ l, includes (es.map Prod.fst) m.name = false) →
      l.foldl mixModelsStep es = es ++ l.map (fun m => (m.name, m)) := by
  intro l
  induction l with
  | nil => intro es _ _; simp
  | cons m rest ih =>
    intro es hnd hfresh
    rw [List.foldl_cons]
    have hstep : mixModelsStep es m = es ++ [(m.name, m)] := by
      rw [mixModelsStep, lookupModel_eq_none (hfresh m (List.mem_cons_self m rest))]
    rw [hstep, ih]
    · simp
    · rw [List.map_cons, List.nodup_cons] at hnd
      exact hnd.2
    · intro m' hm'
      rw [List.map_append]
      apply includes_eq_false.mpr
      rw [List.mem_append]
      push_neg
      constructor
      · exact includes_eq_false.mp (hfresh m' (List.mem_cons_of_mem m hm'))
      · simp
        intro hcontra
        rw [List.map_cons, List.nodup_cons] at hnd
        exact hnd.1 (hcontra ▸ List.mem_map_of_mem Model.name hm')

lemma empty_coherent : Coherent [] := by
  intro e he
  simp at he

lemma foldl_coherent (l : List Model) : Coherent (l.foldl mixModelsStep []) :=
  coherent_foldl l [] empty_coherent

lemma map_name_of_coherent {es : List (String × Model)} (hC : Coherent es) :
    (es.map Prod.snd).map Model.name = es.map Prod.fst := by
  rw [List.map_map]
  exact List.map_congr_left fun e he => hC e he

/-! ## Claim theorems -/

/-- C8: for every input to the entity merger, the names of the returned
models are pairwise distinct — the `models` object is keyed by name, keys
are unique, and `Object.values` returns one model per key. -/
theorem mixModels_names_nodup (inputModels : List Model) :
    ((mixModels inputModels).map Model.name).Nodup := by
  rw [mixModels]
  have hperm : ((objectValues (inputModels.foldl mixModelsStep [])).map Model.name).Perm
      ((inputModels.foldl mixModelsStep []).map Prod.fst) := by
    rw [← map_name_of_coherent (foldl_coherent inputModels)]
    exact List.Perm.map _ (objectValues_perm _)
  rw [hperm.nodup_iff, keys_foldl, ← List.foldl_map Model.name
    (fun acc n => if includes acc n then acc else acc ++ [n])]
  exact nodup_names_foldl (inputModels.map Model.name) [] List.nodup_nil

/-- C1 (amended): when no input model name is array-index-like, `mixModels`
lists the merged models in first-seen order of their names. -/
theorem mixModels_firstSeen_order (l : List Model)
    (h : ∀ m ∈ l, isArrayIndex m.name = false) :
    (mixModels l).map Model.name = firstSeen (l.map Model.name) := by
  rw [mixModels]
  have hkeys : (l.foldl mixModelsStep []).map Prod.fst = firstSeen (l.map Model.name) := by
    rw [keys_foldl, firstSeen, List.foldl_map Model.name
      (fun acc n => if includes acc n then acc else acc ++ [n])]
    rfl
  have hnoidx : ∀ e ∈ l.foldl mixModelsStep [], isArrayIndex e.1 = false := by
    intro e he
    have hmem : e.1 ∈ (l.foldl mixModelsStep []).map Prod.fst := List.mem_map_of_mem Prod.fst he
    rw [hkeys, firstSeen] at hmem
    cases mem_names_foldl (l.map Model.name) [] hmem with
    | inl h' => simp at h'
    | inr h' =>
      obtain ⟨m, hm, heq⟩ := List.mem_map.mp h'
      exact heq ▸ h m hm
  rw [objectValues_no_index hnoidx, map_name_of_coherent (foldl_coherent l), hkeys]

/-- C1 witness: a concrete stream with a repeated, non-index-like name,
merged in first-seen order. -/
theorem mixModels_firstSeen_order_witness :
    (∀ m ∈ [Model.mk "User" [], Model.mk "Post" [], Model.mk "User" []],
        isArrayIndex m.name = false) ∧
      (mixModels [Model.mk "User" [], Model.mk "Post" [], Model.mk "User" []]).map Model.name =
        firstSeen ([Model.mk "User" [], Model.mk "Post" [], Model.mk "User" []].map Model.name) :=
  ⟨by decide, mixModels_firstSeen_order _ (by decide)⟩

/-- C1 counterexample: with models named "2" then "1", `mixModels` returns
them in ascending numeric key order — `Object.values` puts array-index-like
keys first — not in first-seen order, refuting the claim for names that
look like integers. -/
theorem mixModels_not_firstSeen_on_integer_names :
    (mixModels [⟨"2", []⟩, ⟨"1", []⟩]).map Model.name = ["1", "2"] ∧
      firstSeen ([Model.mk "2" [], Model.mk "1" []].map Model.name) = ["2", "1"] := by
  decide

/-- C9 (amended): merging a single entity list whose names are pairwise
distinct and not array-index-like returns it unchanged, with entity order
and every field list preserved. -/
theorem mixModels_single_list_identity (E : List Model)
    (h1 : (E.map Model.name).Nodup)
    (h2 : ∀ m ∈ E, isArrayIndex m.name = false) :
    mixModels E = E := by
  rw [mixModels, foldl_fresh E [] h1 (fun m _ => rfl), List.nil_append,
    objectValues_no_index (by
      intro e he
      obtain ⟨m, hm, heq⟩ := List.mem_map.mp he
      rw [← heq]
      exact h2 m hm)]
  simp only [List.map_map]
  have hid : List.map (Prod.snd ∘ fun m => (m.name, m)) E = List.map id E :=
    List.map_congr_left fun m _ => rfl
  rw [hid, List.map_id]

/-- C9 witness: a concrete two-model list returned unchanged. -/
theorem mixModels_single_list_identity_witness :
    ((([Model.mk "User" [⟨"id", "Int"⟩], Model.mk "Post" []]).map Model.name).Nodup ∧
        ∀ m ∈ [Model.mk "User" [⟨"id", "Int"⟩], Model.mk "Post" []],
          isArrayIndex m.name = false) ∧
      mixModels [Model.mk "User" [⟨"id", "Int"⟩], Model.mk "Post" []] =
        [Model.mk "User" [⟨"id", "Int"⟩], Model.mk "Post" []] :=
  ⟨⟨by decide, by decide⟩, mixModels_single_list_identity _ (by decide) (by decide)⟩

/-- C9 counterexample: a list with a duplicated entity name is not returned
unchanged — the two occurrences are merged into one. -/
theorem mixModels_not_identity_on_duplicate_names :
    mixModels [⟨"A", []⟩, ⟨"A", []⟩] = [⟨"A", []⟩] ∧
      mixModels [⟨"A", []⟩, ⟨"A", []⟩] ≠ [⟨"A", []⟩, ⟨"A", []⟩] := by
  decide

lemma mixModels_pair (n : String) (fs gs : List Field) :
    mixModels [⟨n, fs⟩, ⟨n, gs⟩] = [⟨n, mergeFields fs gs⟩] := by
  simp [mixModels, mixModelsStep, lookupModel, updateModel, objectValues_singleton]

lemma mergeFields_two (f1 f2 f2' f3 : Field) (h2 : f2'.name = f2.name)
    (h12 : f1.name ≠ f2.name) (h31 : f3.name ≠ f1.name) (h32 : f3.name ≠ f2.name) :
    mergeFields [f1, f2] [f2', f3] = [f1, f2', f3] := by
  have hinc1 : includes [f1.name, f2.name] f2'.name = true := by
    simp [includes, h2]
  have hidx1 : indexOf [f1.name, f2.name] f2'.name = 1 := by
    simp [indexOf, h2, h12]
  have hinc2 : includes [f1.name, f2.name] f3.name = false := by
    simp [includes, Ne.symm h31, Ne.symm h32]
  simp [mergeFields, hinc1, hidx1, hinc2, List.set]

/-- C2: merging `[A]` then `[A']` for same-named entities A with fields
`[f1, f2]` and A' with fields `[f2', f3]`, where `f2'` renames `f2` and the
other field names are distinct, yields one entity with fields
`[f1, f2', f3]`: `f2` is replaced in place, `f3` appended. -/
theorem mixModels_override_append (n : String) (f1 f2 f2' f3 : Field)
    (h2 : f2'.name = f2.name) (h12 : f1.name ≠ f2.name)
    (h31 : f3.name ≠ f1.name) (h32 : f3.name ≠ f2.name) :
    mixModels [⟨n, [f1, f2]⟩, ⟨n, [f2', f3]⟩] = [⟨n, [f1, f2', f3]⟩] := by
  rw [mixModels_pair, mergeFields_two f1 f2 f2' f3 h2 h12 h31 h32]

/-- C2 witness: the override/append behavior at a concrete pair of
`User` entities. -/
theorem mixModels_override_append_witness :
    ((Field.mk "name" "Text").name = (Field.mk "name" "String").name ∧
        (Field.mk "id" "Int").name ≠ (Field.mk "name" "String").name ∧
        (Field.mk "email" "String").name ≠ (Field.mk "id" "Int").name ∧
        (Field.mk "email" "String").name ≠ (Field.mk "name" "String").name) ∧
      mixModels
          [⟨"User", [⟨"id", "Int"⟩, ⟨"name", "String"⟩]⟩,
            ⟨"User", [⟨"name", "Text"⟩, ⟨"email", "String"⟩]⟩] =
        [⟨"User", [⟨"id", "Int"⟩, ⟨"name", "Text"⟩, ⟨"email", "String"⟩]⟩] :=
  ⟨⟨by decide, by decide, by decide, by decide⟩,
    mixModels_override_append "User" _ _ _ _ (by decide) (by decide) (by decide) (by decide)⟩

lemma getLastD_cons {α : Type} (a d : α) (l : List α) :
    ((a :: l).getLast?).getD d = (l.getLast?).getD a := by
  induction l generalizing a d with
  | nil => rfl
  | cons b m ih => rw [List.getLast?_cons_cons, ih b d, ih b a]

lemma lastWins_nil (e : Field) : lastWins [] e = e := rfl

lemma lastWins_cons_ne {f e : Field} (h : f.name ≠ e.name) (fs : List Field) :
    lastWins (f :: fs) e = lastWins fs e := by
  rw [lastWins, lastWins, List.filter_cons, if_neg (by simp [h])]

lemma lastWins_cons_eq {f e : Field} (h : f.name = e.name) (fs : List Field) :
    lastWins (f :: fs) e = lastWins fs f := by
  rw [lastWins, lastWins, List.filter_cons, if_pos (by simp [h]), getLastD_cons, ← h]

lemma set_map_name (f : Field) : ∀ C : List Field,
    includes (C.map Field.name) f.name = true →
    (C.set (indexOf (C.map Field.name) f.name) f).map Field.name = C.map Field.name := by
  intro C
  induction C with
  | nil => intro h; simp [includes] at h
  | cons c C ih =>
    intro h
    rw [List.map_cons, indexOf]
    by_cases hc : c.name = f.name
    · rw [if_pos (by simp [hc]), List.set_cons_zero, List.map_cons, hc]
    · rw [if_neg (by simp [hc]), List.set_cons_succ, List.map_cons]
      congr 1
      apply ih
      rw [List.map_cons, includes] at h
      simpa [hc] using h

lemma map_lastWins_set (f : Field) (fs : List Field) : ∀ C : List Field,
    (C.map Field.name).Nodup →
    includes (C.map Field.name) f.name = true →
    (C.set (indexOf (C.map Field.name) f.name) f).map (lastWins fs) =
      C.map (lastWins (f :: fs)) := by
  intro C
  induction C with
  | nil => intro _ h; simp [includes] at h
  | cons c C ih =>
    intro hnd h
    rw [List.map_cons, indexOf]
    by_cases hc : c.name = f.name
    · rw [if_pos (by simp [hc]), List.set_cons_zero, List.map_cons, List.map_cons]
      have hhead : lastWins (f :: fs) c = lastWins fs f := lastWins_cons_eq hc.symm fs
      have htail : C.map (lastWins (f :: fs)) = C.map (lastWins fs) := by
        apply List.map_congr_left
        intro e he
        apply lastWins_cons_ne
        rw [List.map_cons, List.nodup_cons] at hnd
        intro hcontra
        exact hnd.1 (by rw [hc, hcontra]; exact List.mem_map_of_mem Field.name he)
      rw [hhead, htail]
    · rw [if_neg (by simp [hc]), List.set_cons_succ, List.map_cons, List.map_cons]
      have hincC : includes (C.map Field.name) f.name = true := by
        rw [List.map_cons, includes] at h
        simpa [hc] using h
      have hnd' : (C.map Field.name).Nodup := by
        rw [List.map_cons, List.nodup_cons] at hnd
        exact hnd.2
      rw [ih hnd' hincC]
      congr 1
      exact (lastWins_cons_ne (fun hh => hc hh.symm) fs).symm

lemma mergeFoldAux (names : List String) (hN : names.Nodup) :
    ∀ (fs C A : List Field), C.map Field.name = names →
      fs.foldl
          (fun fields newField =>
            if includes names newField.name then
              fields.set (indexOf names newField.name) newField
            else fields ++ [newField])
          (C ++ A) =
        C.map (lastWins fs) ++ A ++ fs.filter (fun f => !includes names f.name) := by
  intro fs
  induction fs with
  | nil =>
    intro C A _
    rw [List.foldl_nil, List.filter_nil, List.append_nil]
    have hmap : C.map (lastWins []) = C := by
      have h1 : C.map (lastWins []) = C.map id := List.map_congr_left fun e _ => rfl
      rw [h1, List.map_id]
    rw [hmap]
  | cons f fs ih =>
    intro C A hC
    rw [List.foldl_cons]
    by_cases hf : includes names f.name = true
    · have hlt : indexOf names f.name < C.length := by
        have h' := indexOf_lt_length hf
        have h2 : names.length = C.length := by
          rw [← hC, List.length_map]
        rwa [h2] at h'
      have hnd' : (C.map Field.name).Nodup := hC ▸ hN
      have hf' : includes (C.map Field.name) f.name = true := hC ▸ hf
      rw [if_pos hf, List.set_append, if_pos hlt,
        ih (C.set (indexOf names f.name) f) A
          (by rw [← hC]; exact set_map_name f C hf')]
      have hset : (C.set (indexOf names f.name) f).map (lastWins fs) =
          C.map (lastWins (f :: fs)) := by
        rw [← hC] at hf ⊢
        exact map_lastWins_set f fs C hnd' hf
      rw [hset, List.filter_cons, if_neg (by simp [hf])]
    · rw [Bool.not_eq_true] at hf
      rw [hf, if_neg Bool.false_ne_true, List.append_assoc, ih C (A ++ [f]) hC]
      have hmap : C.map (lastWins (f :: fs)) = C.map (lastWins fs) := by
        apply List.map_congr_left
        intro e he
        apply lastWins_cons_ne
        intro hcontra
        have : f.name ∈ names := by
          rw [← hC, hcontra]
          exact List.mem_map_of_mem Field.name he
        exact includes_eq_false.mp hf this
      rw [hmap, List.filter_cons, if_pos (by rw [hf]; rfl)]
      simp

/-- C3 (amended): when a model's name is already in the mapping, the
replace-vs-append decision for each incoming field is made against the
snapshot of accumulated field names taken when reconciliation of this model
begins, not against the accumulated entity at that moment.  The result is
the accumulated fields with each snapshot-named field overwritten in place
by the last incoming field of that name, followed by all incoming fields
whose names are absent from the snapshot — so two same-named fields that
are both new are both appended, producing a duplicate. -/
theorem mergeFields_snapshot (E fs : List Field) (hE : (E.map Field.name).Nodup) :
    mergeFields E fs =
      E.map (lastWins fs) ++ fs.filter (fun f => !includes (E.map Field.name) f.name) := by
  have h := mergeFoldAux (E.map Field.name) hE fs E [] rfl
  simp only [List.append_nil] at h
  rw [mergeFields]
  exact h

/-- C3 witness: one existing field `a`, two new fields both named `b` —
both are appended, the suffix being exactly the filter of the new fields. -/
theorem mergeFields_snapshot_witness :
    (([Field.mk "a" "p"].map Field.name).Nodup) ∧
      mergeFields [Field.mk "a" "p"] [Field.mk "b" "q", Field.mk "b" "r"] =
        [Field.mk "a" "p"].map (lastWins [Field.mk "b" "q", Field.mk "b" "r"]) ++
          ([Field.mk "b" "q", Field.mk "b" "r"].filter
            (fun f => !includes ([Field.mk "a" "p"].map Field.name) f.name)) :=
  ⟨by decide, mergeFields_snapshot _ _ (by decide)⟩

/-- C3 counterexample: a new model carrying two fields named `b` merged
into an accumulated model without a `b` field yields TWO `b` fields (the
claim predicts a single one, the second replacing the first). -/
theorem mergeFields_duplicate_new_fields :
    mixModels [⟨"M", [⟨"a", "p"⟩]⟩, ⟨"M", [⟨"b", "q"⟩, ⟨"b", "r"⟩]⟩] =
        [⟨"M", [⟨"a", "p"⟩, ⟨"b", "q"⟩, ⟨"b", "r"⟩]⟩] ∧
      (mixModels [⟨"M", [⟨"a", "p"⟩]⟩, ⟨"M", [⟨"b", "q"⟩, ⟨"b", "r"⟩]⟩]).map
          (fun m => m.fields.map Field.name) = [["a", "b", "b"]] := by
  decide

lemma reduceSingletonsAux {α : Type} :
    ∀ (lists : List (List α)) (acc : List α),
      lists.foldl (fun a l => if l.length > 0 then l else a) acc =
        ((lists.filter fun l => !l.isEmpty).getLast?).getD acc := by
  intro lists
  induction lists with
  | nil => intro acc; rfl
  | cons l ls ih =>
    intro acc
    cases l with
    | nil => simp [ih]
    | cons x xs => simp [ih, getLastD_cons]

/-- C4: the singleton-section reduction used for datasources and generator
configs returns the last non-empty fragment list, in fragment order, and
the empty list when every fragment list is empty; in particular
`reduceSingletons [[], [c1], []] = [c1]` and
`reduceSingletons [[], []] = []`. -/
theorem reduceSingletons_last_nonempty (α : Type) :
    (∀ lists : List (List α),
        reduceSingletons lists = ((lists.filter fun l => !l.isEmpty).getLast?).getD []) ∧
      (∀ c1 : α, reduceSingletons [[], [c1], []] = [c1]) ∧
      reduceSingletons ([[], []] : List (List α)) = [] :=
  ⟨fun lists => reduceSingletonsAux lists [], fun _ => rfl, rfl⟩

lemma foldlAppendAux {α : Type} :
    ∀ (lists : List (List α)) (acc : List α),
      lists.foldl (fun acc l => acc ++ l) acc = acc ++ lists.flatten := by
  intro lists
  induction lists with
  | nil => intro acc; simp
  | cons l ls ih =>
    intro acc
    rw [List.foldl_cons, ih, List.flatten_cons, List.append_assoc]

/-- C5: the enum reduction is pure concatenation in fragment order,
keeping every entry and all duplicates — `reduceEnums [[e1], [e1]]` has two
entries even though the name repeats. -/
theorem reduceEnums_concat (α : Type) :
    (∀ lists : List (List α), reduceEnums lists = lists.flatten) ∧
      (∀ e1 : α, reduceEnums [[e1], [e1]] = [e1, e1]) := by
  constructor
  · intro lists
    rw [reduceEnums, foldlAppendAux lists [], List.nil_append]
  · intro e1
    rfl

/-- C10: merging fragment-by-fragment (the spec's contract) equals merging
the flattened stream once, and the orchestrator's model accumulation is
exactly that flattening. -/
theorem mixModels_fragment_insensitive :
    (∀ fragments : List (List Model),
        mixModelsFragments fragments = mixModels fragments.flatten) ∧
      (∀ schemasToMix : List Schema,
        schemasToMix.foldl (fun acc s => acc ++ s.models) [] =
          (schemasToMix.map fun s => s.models).flatten) := by
  constructor
  · intro fragments
    rw [mixModelsFragments, mixModels, List.foldl_flatten]
  · intro schemasToMix
    rw [← List.foldl_map (fun s : Schema => s.models) (fun acc l => acc ++ l) schemasToMix [],
      foldlAppendAux, List.nil_append]

lemma intercalate_go (sep : String) :
    ∀ (as : List String) (acc : String),
      String.intercalate.go acc sep as = acc ++ sepConcat sep as := by
  intro as
  induction as with
  | nil =>
    intro acc
    simp only [String.intercalate.go, sepConcat, String.append_empty]
  | cons a as ih =>
    intro acc
    simp only [String.intercalate.go, sepConcat, ih]
    simp [String.append_assoc]

lemma jsJoin_sepConcat (sep : String) :
    ∀ (as : List String) (a : String), jsJoin sep (a :: as) = a ++ sepConcat sep as := by
  intro as
  induction as with
  | nil =>
    intro a
    simp only [jsJoin, sepConcat, String.append_empty]
  | cons b bs ih =>
    intro a
    simp only [jsJoin, sepConcat, ih b]
    simp [String.append_assoc]

lemma jsJoin_eq_intercalate (sep : String) (l : List String) :
    jsJoin sep l = String.intercalate sep l := by
  cases l with
  | nil => rfl
  | cons a as =>
    simp only [String.intercalate]
    rw [intercalate_go, jsJoin_sepConcat]

/-- C7 (amended): the output text is the rendered sections in the order
datasources, generators, models, enums, with empty renderings dropped,
joined by `"\n\n\n"` — a triple line break (two blank lines), not the
double line break the claim states. -/
theorem buildOutput_sections (env : Env) (schemasToMix : List Schema) :
    buildOutput env schemasToMix =
      String.intercalate "\n\n\n"
        ([env.deserializeDatasources
            (reduceSingletons (schemasToMix.map fun s => s.datasources)),
          env.deserializeGenerators
            (reduceSingletons (schemasToMix.map fun s => s.generators)),
          env.deserializeModels
            (mixModels (schemasToMix.foldl (fun acc s => acc ++ s.models) [])),
          env.deserializeEnums (reduceEnums (schemasToMix.map fun s => s.enums))].filter
          fun s => !s.isEmpty) := by
  simp only [buildOutput, jsFilterTruthy, jsJoin_eq_intercalate]

/-- C7 counterexample: with three non-empty sections the separator is the
literal `"\n\n\n"`, so the output differs from the double-line-break join
the claim describes. -/
theorem buildOutput_not_double_newline :
    buildOutput envTest [schemaA] = "datasource\n\n\ngenerator\n\n\nmodels" ∧
      buildOutput envTest [schemaA] ≠ "datasource\n\ngenerator\n\nmodels" := by
  decide

/-- C6 (amended): a load failure in a job rejects the whole invocation —
nothing is written for the failing job, and no later job runs (no writes at
all are produced past the failure, whatever the remaining jobs are). -/
theorem prismix_abort_on_load_failure (env : Env) (mixer : MixerOptions)
    (rest : List MixerOptions) (e : LoadError)
    (h : loadSchemas env mixer.input = .error e) :
    prismix env ⟨mixer :: rest⟩ = ([], some e) := by
  simp only [prismix, runMixers, h]

/-- C6 witness: the abort theorem applied to a concrete failing first job
followed by a healthy second job. -/
theorem prismix_abort_on_load_failure_witness :
    loadSchemas envTest [("bad.prisma" : String)] = .error ⟨"ENOENT: bad.prisma"⟩ ∧
      prismix envTest
          ⟨[⟨["bad.prisma"], "out1.prisma"⟩, ⟨["good.prisma"], "out2.prisma"⟩]⟩ =
        ([], some ⟨"ENOENT: bad.prisma"⟩) :=
  ⟨rfl, prismix_abort_on_load_failure envTest ⟨["bad.prisma"], "out1.prisma"⟩ _ _ rfl⟩

/-- C6 counterexample: job 1 fails to load, job 2 is valid — run alone,
job 2 writes its output, but run after the failing job 1 it produces
nothing, refuting per-job isolation. -/
theorem prismix_no_job_isolation :
    (prismix envTest ⟨[⟨["good.prisma"], "out2.prisma"⟩]⟩).2 = none ∧
      ((prismix envTest ⟨[⟨["good.prisma"], "out2.prisma"⟩]⟩).1.map Prod.fst) =
        ["out2.prisma"] ∧
      prismix envTest
          ⟨[⟨["bad.prisma"], "out1.prisma"⟩, ⟨["good.prisma"], "out2.prisma"⟩]⟩ =
        ([], some ⟨"ENOENT: bad.prisma"⟩) ∧
      "out2.prisma" ∉
        (prismix envTest
            ⟨[⟨["bad.prisma"], "out1.prisma"⟩, ⟨["good.prisma"], "out2.prisma"⟩]⟩).1.map
          Prod.fst := by
  decide

end Prismix
